import Mathlib

/-!
Verification of the perturbation search engine of the pad4amd repository.

The development shallowly embeds the attack procedures of
`core/attack/bca.py` and `core/attack/orthogonal_stepwise_max.py` and the
random-start helper of `tools/utils.py`.  Feature vectors are lists of
rationals, a batch is a list of feature vectors, and the external
classifier/detector (the gradient oracle of `base_attack.py`, which is not
part of the sources) is abstracted by a record of functions following the
spec's oracle contract.
-/

/-- A feature vector: one rational per vocabulary feature. -/
abbrev Row := List ℚ

/-- A batch of feature vectors. -/
abbrev Batch := List Row

/-- Modelled from the spec: the Gradient Oracle Adapter of section 4.2.
`BaseAttack.get_loss` and the victim networks are outside the sources, so the
oracle is abstracted: `hasForwardG` says whether the model exposes the
detector objective `forward_g`; `done` is the per-sample success predicate
returned by `get_loss`; `grad` is the per-sample gradient of the penalized
loss at a vector and a penalty factor lambda; `score` is the per-sample
selection score of `get_scores`. -/
structure Model where
  hasForwardG : Bool
  done : Row → Bool
  grad : Row → ℚ → Row
  score : Row → ℚ

/-- Embedding of `torch.clamp(v, min=0., max=1.)`. -/
def clamp01 (v : ℚ) : ℚ := max 0 (min v 1)

/-- Dot product of two vectors, as computed by `torch.bmm` on a
`(1, d) x (d, 1)` pair in `orthogonal_stepwise_max.py`. -/
def dot (a b : Row) : ℚ := (List.zipWith (· * ·) a b).sum

/-- Embedding of `F.one_hot(p, num_classes = n).float()`. -/
def oneHot (p n : ℕ) : Row := (List.range n).map (fun j => if j = p then (1 : ℚ) else 0)

/-- Index returned by `torch.max(l, dim=-1)`: the first position carrying the
maximum value of the list (`0` on the empty list). -/
def argmaxFirst (l : List ℚ) : ℕ := l.findIdx (fun v : ℚ => decide (l.maximum = ↑v))

/-- Embedding of `grad4insertion = (grad > 0) * grad * (adv_x <= 0.5)` from
`BCA._perturb` (bca.py line 79). -/
def grad4insertion (g x : Row) : Row :=
  List.zipWith (fun gi xi => (if 0 < gi then (1 : ℚ) else 0) * gi * (if xi ≤ 1/2 then 1 else 0)) g x

/-- One bit-coordinate-ascent update of a single sample (bca.py lines 79-86):
restrict the gradient to feasible insertion positions, one-hot flip at the
arg-max position, zero the perturbation when the sample is already done, and
clamp into `[0,1]`. -/
def bcaSampleStep (g x : Row) (done : Bool) : Row :=
  let g4 := grad4insertion g x
  let pert := if done then List.replicate x.length (0 : ℚ) else oneHot (argmaxFirst g4) x.length
  List.zipWith (fun xi pi => clamp01 (xi + pi)) x pert

/-- One iteration of the loop of `BCA._perturb` over the whole batch: the
gradient of the mean loss gives each sample its own gradient scaled by
`1 / batch_size`. -/
def bcaStepBatch (M : Model) (lam : ℚ) (adv : Batch) : Batch :=
  adv.map (fun row =>
    bcaSampleStep ((M.grad row lam).map (· / (adv.length : ℚ))) row (M.done row))

/-- Embedding of `rand_x` from `tools/utils.py` (lines 321-338): with
`is_sample` the thresholded random draws are bitwise-or-ed (as bytes) with
the input, otherwise the input is returned unchanged.  `draws` stands for
the values of `torch.rand(x.size())`. -/
def rand_x (x : Row) (thr : ℚ) (isSample : Bool) (draws : Row) : Row :=
  if isSample then
    List.zipWith (fun d v => ((Nat.lor (if thr < d then 1 else 0) ((Int.toNat ⌊v⌋) % 256) : ℕ) : ℚ)) draws x
  else x

/-- Modelled from the spec: `get_x0` is imported from `tools.utils` but is
absent there; per the spec's random-start description it is the random start
`rand_x` applied row by row. -/
def get_x0 (x : Batch) (thr : ℚ) (isSample : Bool) (draws : Batch) : Batch :=
  if isSample then List.zipWith (fun row d => rand_x row thr true d) x draws else x

/-- The `for t in range(m)` loop of `BCA._perturb` after the optional random
start: stop early when every sample is done, otherwise perform one
bit-coordinate-ascent step. -/
def bcaInnerLoop (M : Model) (lam : ℚ) : ℕ → Batch → Batch
  | 0, adv => adv
  | Nat.succ k, adv =>
    if (adv.map M.done).all id then adv
    else bcaInnerLoop M lam k (bcaStepBatch M lam adv)

/-- Embedding of `BCA._perturb` (bca.py lines 45-87): empty batches return
the empty list at once, otherwise the optional random start is applied and
the step loop runs. -/
def bcaPerturbInner (M : Model) (lam : ℚ) (m : ℕ) (useSample : Bool) (draws : Batch)
    (x : Batch) : Batch :=
  if x.length = 0 then []
  else bcaInnerLoop M lam m (if useSample ∧ m ≠ 0 then get_x0 x (1/2) true draws else x)

/-- Rows of a batch at the positions where the mask is `false`: the slice
`adv_x[~done]`. -/
def filterNotDone (l : Batch) (mask : List Bool) : Batch :=
  (l.zip mask).filterMap (fun rd => if rd.2 then none else some rd.1)

/-- Writing a list of replacement rows into the positions where the mask is
`false`: the assignment `adv_x[~done] = vals`. -/
def scatterNotDone : Batch → List Bool → Batch → Batch
  | [], _, _ => []
  | r :: rs, [], _ => r :: rs
  | r :: rs, d :: ds, vals =>
    if d then r :: scatterNotDone rs ds vals
    else vals.headD r :: scatterNotDone rs ds vals.tail

/-- Result of the lambda-escalation loop of `BCA.perturb`: the final batch,
the number of escalation rounds executed, the final value of lambda, and
whether the loop exited through one of its own conditions (rather than by
running out of fuel). -/
structure LoopResult where
  final : Batch
  rounds : ℕ
  lambdaEnd : ℚ
  completed : Bool

/-- The `while self.lambda_ <= max_lambda_` loop of `BCA.perturb` (bca.py
lines 106-119), with explicit fuel.  Each round recomputes the done flags,
breaks when all samples are done, runs `_perturb` on the not-done slice,
writes the result back into that slice, multiplies lambda by `base`, and
stops when `check_lambda` fails.  `check_lambda` is modelled from the spec:
escalation continues only while the two-objective oracle (a model exposing
`forward_g`) is present. -/
def bcaLambdaLoop (M : Model) (m : ℕ) (useSample : Bool) (draws : Batch)
    (maxL base : ℚ) : ℕ → ℚ → Batch → LoopResult
  | 0, lam, adv => ⟨adv, 0, lam, false⟩
  | Nat.succ fuel, lam, adv =>
    if lam ≤ maxL then
      let done := adv.map M.done
      if done.all id then ⟨adv, 0, lam, true⟩
      else
        let pert := bcaPerturbInner M lam m useSample draws (filterNotDone adv done)
        let advNext := scatterNotDone adv done pert
        if M.hasForwardG then
          let r := bcaLambdaLoop M m useSample draws maxL base fuel (lam * base) advNext
          ⟨r.final, r.rounds + 1, r.lambdaEnd, r.completed⟩
        else ⟨advNext, 1, lam * base, true⟩
    else ⟨adv, 0, lam, true⟩

/-- Embedding of `BCA.perturb` (bca.py lines 89-124): lambda starts at
`min_lambda_` when the model exposes `forward_g` and at `max_lambda_`
otherwise, then the escalation loop runs. -/
def bcaPerturb (M : Model) (x : Batch) (m : ℕ) (minL maxL base : ℚ)
    (useSample : Bool) (draws : Batch) (fuel : ℕ) : LoopResult :=
  bcaLambdaLoop M m useSample draws maxL base fuel (if M.hasForwardG then minL else maxL) x

/-- Embedding of `OrthogonalStepwiseMax.trans_grads` (orthogonal_stepwise_max.py
lines 208-217): the feasible gradient keeps a non-negative gradient where the
value is in `[0, 0.5]` (insertion) and a negative gradient where the value
exceeds `0.5` and the manipulation mask allows removal. -/
def trans_grads (g x : Row) (mask : List Bool) : Row :=
  List.zipWith (fun gi xm =>
      (if 0 ≤ gi then (1 : ℚ) else 0) * ((if xm.1 ≤ 1/2 then (1 : ℚ) else 0) * (if 0 ≤ xm.1 then 1 else 0)) * gi
      + (if gi < 0 then (1 : ℚ) else 0) * (if 1/2 < xm.1 ∧ xm.2 = true then 1 else 0) * gi)
    g (x.zip mask)

/-- The epsilon `1e-20` guarding the projection denominators in
`OrthogonalStepwiseMax._perturb`. -/
def epsProj : ℚ := 1 / 10 ^ 20

/-- Embedding of the per-sample orthogonal projection of
`OrthogonalStepwiseMax._perturb` (orthogonal_stepwise_max.py lines 148-152):
`gd - ((gd . gc) / (1e-20 + gc . gc)) * gc`. -/
def orthoProject (gd gc : Row) : Row :=
  let coef := dot gd gc / (epsProj + dot gc gc)
  List.zipWith (fun di ci => di - coef * ci) gd gc

/-- The orthogonal decomposition as the spec words it: remove from `g` its
component along `h`, with the epsilon added to the denominator
(`g - (g . h / (h . h + eps)) h`).  Stated for comparison with
`orthoProject`, which is taken from the source. -/
def orthoProjectSpec (g h : Row) : Row :=
  List.zipWith (fun gi hi => gi - (dot g h / (dot h h + epsProj)) * hi) g h

/-- Modelled from the spec: `torch.sign`. -/
def signQ (v : ℚ) : ℚ := if 0 < v then 1 else if v < 0 then -1 else 0

/-- Modelled from the spec: the intended L-infinity projected-gradient step of
`OrthogonalStepwiseMax._perturb` — add the sign of the gradient scaled by the
step length to the current vector and clamp into `[0,1]`.  The source instead
updates the never-initialized local `adv_x_linf`. -/
def pgdLinfStep (g x : Row) (sl : ℚ) : Row :=
  List.zipWith (fun gi xi => clamp01 (xi + signQ gi * sl)) g x

/-- Modelled from the spec: `round_x` is imported from `tools.utils` but is
absent there; per the spec's Rounding/Feasibility Projector it thresholds a
continuous vector at the cut point. -/
def round_x (x : Row) (alpha : ℚ) : Row := x.map (fun v => if alpha < v then (1 : ℚ) else 0)

/-- Embedding of `OrthogonalStepwiseMax._perturb` (orthogonal_stepwise_max.py
lines 97-206).  An empty batch returns the empty result at once (the source
returns the empty list); a model without `forward_g` fails the assertion at
line 122.  On any other input the loop body (for `steps >= 1`) and the final
return statement (for `steps = 0`) read the locals `adv_x_linf`, `adv_x_l2`
and `adv_x_l1`, which are never assigned, so the call raises
`UnboundLocalError`; the computations that precede the raise are modelled by
`trans_grads` and `orthoProject`. -/
def osmPerturbInner (M : Model) (x : Batch) (steps : ℕ) (sl1 sl2 slinf : ℚ) :
    Except String (Batch × Batch × Batch) :=
  if x.length = 0 then .ok ([], [], [])
  else if M.hasForwardG = false then .error "AssertionError: Expected an adversary detector"
  else
    let _ := (steps, sl1, sl2, slinf)
    .error "UnboundLocalError: local variable adv_x_linf referenced before assignment"

/-- The `mini_steps` schedule of `OrthogonalStepwiseMax.perturb` (lines
53-54). -/
def osmMiniSteps (steps stepCheck : ℕ) : List ℕ :=
  List.replicate (steps / stepCheck) stepCheck ++
    (if steps % stepCheck ≠ 0 then [steps % stepCheck] else [])

/-- The mask `~done[~prev_done]` of line 70: the current done flags restricted
to the previously not-done positions. -/
def maskRestrict (done prevDone : List Bool) : List Bool :=
  (done.zip prevDone).filterMap (fun dp => if dp.2 then none else some dp.1)

/-- The checkpoint selection of `OrthogonalStepwiseMax.perturb` (lines 80-89):
stack the L-infinity, L2 and L1 candidates, score the concatenation, reshape
to (strategy, sample), and keep the per-sample candidate of maximal score. -/
def osmCheckpointSelect (M : Model) (pertLinf pertL2 pertL1 : Batch) : Batch :=
  (List.range pertLinf.length).map (fun j =>
    let cands := [pertLinf.getD j [], pertL2.getD j [], pertL1.getD j []]
    cands.getD (argmaxFirst (cands.map M.score)) [])

/-- The checkpoint loop of `OrthogonalStepwiseMax.perturb` (lines 61-90),
iterating over the `mini_steps` schedule with the carried
`pert_x_cont`/`prev_done` state. -/
def osmPerturbGo (M : Model) (x : Batch) (sl1 sl2 slinf thr : ℚ) :
    List ℕ → Batch → Option Batch → Option (List Bool) → ℕ → Except String Batch
  | [], adv, _, _, _ => .ok adv
  | ms :: rest, adv, pertXCont, prevDone, i =>
    let done := adv.map M.done
    if done.all id then .ok adv
    else
      match (if i = 0 then Except.ok (scatterNotDone adv done (filterNotDone x done))
             else match pertXCont, prevDone with
               | some pc, some pd =>
                 Except.ok (scatterNotDone adv done (filterNotDone pc (maskRestrict done pd)))
               | _, _ => Except.error "TypeError: pert_x_cont is None") with
      | .error e => .error e
      | .ok adv1 =>
        match osmPerturbInner M (filterNotDone adv1 done) ms sl1 sl2 slinf with
        | .error e => .error e
        | .ok cands =>
          let cont := osmCheckpointSelect M cands.1 cands.2.1 cands.2.2
          osmPerturbGo M x sl1 sl2 slinf thr rest
            (scatterNotDone adv1 done (cont.map (fun r => round_x r thr)))
            (some cont) (some done) (i + 1)

/-- Embedding of `OrthogonalStepwiseMax.perturb` (orthogonal_stepwise_max.py
lines 41-95): the assertion on the step lengths, the `mini_steps` schedule
(division by a zero `step_check` raises), then the checkpoint loop. -/
def osmPerturb (M : Model) (x : Batch) (steps stepCheck : ℕ)
    (sl1 sl2 slinf thr : ℚ) : Except String Batch :=
  if ¬(sl1 ≤ 1 ∧ 0 < sl1 ∧ 0 ≤ sl2 ∧ 0 ≤ slinf) then .error "AssertionError"
  else if stepCheck = 0 then .error "ZeroDivisionError"
  else osmPerturbGo M x sl1 sl2 slinf thr (osmMiniSteps steps stepCheck) x none none 0

/-- Scenario oracle for the bit-coordinate-ascent example: never done, and a
constant gradient whose feasible restriction favors dimension 3, then
dimension 7 once dimension 3 has been switched on. -/
def bcaScenarioModel : Model :=
  ⟨true, fun _ => false, fun _ _ => [1, 1, 1, 9, 1, 1, 1, 5, 1, 1], fun _ => 0⟩

/-- Oracle with an everywhere-negative gradient: the feasible insertion
gradient vanishes identically. -/
def bcaNegGradModel : Model := ⟨true, fun _ => false, fun _ _ => [-1, -1], fun _ => 0⟩

/-- Oracle used to exercise the orthogonal stepwise-max attack: a detector is
present and no sample is ever done. -/
def osmCrashModel : Model := ⟨true, fun _ => false, fun _ _ => [0], fun _ => 0⟩

/-- Oracle whose selection score of a row is its first entry. -/
def osmSelectModel : Model := ⟨true, fun _ => false, fun _ _ => [0], fun r => r.headD 0⟩

/-- Oracle reporting every sample as already done. -/
def allDoneModel : Model := ⟨true, fun _ => true, fun _ _ => [0], fun _ => 0⟩

/-- Oracle for the lambda-escalation witness: detector present, never done. -/
def escModel : Model := ⟨true, fun _ => false, fun _ _ => [1], fun _ => 0⟩

lemma clamp01_nonneg (v : ℚ) : 0 ≤ clamp01 v := le_max_left 0 _

lemma clamp01_le_one (v : ℚ) : clamp01 v ≤ 1 := by
  unfold clamp01
  exact max_le (by norm_num) (min_le_right v 1)

lemma clamp01_eq_self {v : ℚ} (h0 : 0 ≤ v) (h1 : v ≤ 1) : clamp01 v = v := by
  unfold clamp01
  rw [min_eq_left h1, max_eq_right h0]

lemma getD_map_lt {α β : Type} (f : α → β) (l : List α) (i : ℕ) (hi : i < l.length)
    (d : β) (d0 : α) : (l.map f).getD i d = f (l.getD i d0) := by
  rw [List.getD_eq_getElem?_getD, List.getElem?_map, List.getElem?_eq_getElem hi,
    List.getD_eq_getElem?_getD, List.getElem?_eq_getElem hi]
  rfl

lemma getD_eq_getElem {α : Type} (l : List α) (i : ℕ) (hi : i < l.length) (d : α) :
    l.getD i d = l[i] := by
  rw [List.getD_eq_getElem?_getD, List.getElem?_eq_getElem hi]
  rfl

lemma oneHot_length (p n : ℕ) : (oneHot p n).length = n := by simp [oneHot]

lemma oneHot_getElem (p n i : ℕ) (h : i < (oneHot p n).length) :
    (oneHot p n)[i] = if i = p then (1 : ℚ) else 0 := by
  unfold oneHot
  rw [List.getElem_map, List.getElem_range]

lemma grad4insertion_length (g x : Row) :
    (grad4insertion g x).length = min g.length x.length := by
  simp [grad4insertion]

lemma findIdx_eq_first (pr : ℚ → Bool) :
    ∀ (l : List ℚ) (i : ℕ) (hi : i < l.length), pr l[i] = true →
      (∀ j (hj : j < l.length), j < i → pr l[j] = false) → l.findIdx pr = i := by
  intro l
  induction l with
  | nil => intro i hi; simp at hi
  | cons a t ih =>
    intro i hi hp hbelow
    cases i with
    | zero =>
      rw [List.findIdx_cons]
      simp only [List.getElem_cons_zero] at hp
      simp [hp]
    | succ k =>
      have ha : pr a = false := by
        have := hbelow 0 (by simp) (Nat.succ_pos k)
        simpa using this
      rw [List.findIdx_cons, ha]
      simp only [cond_false]
      have hk : k < t.length := by simpa using hi
      have hpk : pr t[k] = true := by simpa using hp
      have hbk : ∀ j (hj : j < t.length), j < k → pr t[j] = false := by
        intro j hj hjk
        have := hbelow (j + 1) (by simpa using hj) (by omega)
        simpa using this
      rw [ih k hk hpk hbk]

lemma argmaxFirst_eq_of_strict (l : List ℚ) (p : ℕ) (hp : p < l.length)
    (h : ∀ j (hj : j < l.length), j ≠ p → l[j] < l[p]) : argmaxFirst l = p := by
  have hmax : l.maximum = (l[p] : WithBot ℚ) := by
    rw [List.maximum_eq_coe_iff]
    refine ⟨List.get_mem l p hp, ?_⟩
    intro a ha
    obtain ⟨⟨n, hn⟩, hget⟩ := List.mem_iff_get.mp ha
    by_cases hnp : n = p
    · subst hnp
      exact le_of_eq hget.symm
    · have := h n hn hnp
      rw [← hget]
      exact le_of_lt (by simpa using this)
  unfold argmaxFirst
  apply findIdx_eq_first _ l p hp
  · simp [hmax]
  · intro j hj hjp
    have hlt : l[j] < l[p] := h j hj (by omega)
    simp only [decide_eq_false_iff_not]
    rw [hmax]
    intro he
    have heq : l[p] = l[j] := by exact_mod_cast he
    exact (ne_of_gt hlt) heq

lemma argmaxFirst_eq_zero_of_all_eq (l : List ℚ) (c : ℚ) (hne : l ≠ [])
    (h : ∀ v ∈ l, v = c) : argmaxFirst l = 0 := by
  cases l with
  | nil => exact absurd rfl hne
  | cons a t =>
    have ha : a = c := h a (List.mem_cons_self a t)
    have hmax : (a :: t).maximum = (a : WithBot ℚ) := by
      rw [List.maximum_eq_coe_iff]
      refine ⟨List.mem_cons_self a t, ?_⟩
      intro b hb
      rw [h b hb, ha]
    unfold argmaxFirst
    rw [List.findIdx_cons]
    simp [hmax]

lemma zipClamp_oneHot (x : Row) (p : ℕ) (hp : p < x.length)
    (hx : ∀ v ∈ x, 0 ≤ v ∧ v ≤ 1) :
    List.zipWith (fun xi pi => clamp01 (xi + pi)) x (oneHot p x.length) = x.set p 1 := by
  apply List.ext_getElem
  · simp [List.length_zipWith, oneHot_length]
  · intro n h1 h2
    rw [List.getElem_zipWith]
    have hn : n < x.length := by
      have := h1
      simp [List.length_zipWith, oneHot_length] at this
      exact this
    have hone : n < (oneHot p x.length).length := by rw [oneHot_length]; exact hn
    rw [oneHot_getElem p x.length n hone]
    by_cases hnp : n = p
    · subst hnp
      rw [List.getElem_set_self]
      have hb := hx x[n] (x.get_mem n hn)
      have hcond : (if n = n then (1 : ℚ) else 0) = 1 := by simp
      rw [hcond]
      unfold clamp01
      rw [min_eq_right (by linarith [hb.1])]
      norm_num
    · rw [List.getElem_set_ne (fun he => hnp he.symm)]
      have hb := hx x[n] (x.get_mem n hn)
      simp only [if_neg hnp, add_zero]
      exact clamp01_eq_self hb.1 hb.2

lemma mem_zipClamp (x pert : Row) :
    ∀ v ∈ List.zipWith (fun xi pi => clamp01 (xi + pi)) x pert, 0 ≤ v ∧ v ≤ 1 := by
  induction x generalizing pert with
  | nil => simp
  | cons a t ih =>
    cases pert with
    | nil => simp
    | cons b q =>
      intro v hv
      simp only [List.zipWith_cons_cons, List.mem_cons] at hv
      rcases hv with h | h
      · subst h
        exact ⟨clamp01_nonneg _, clamp01_le_one _⟩
      · exact ih q v h

/-- C1: each bit-coordinate-ascent update of a not-yet-successful sample
restricts the gradient to feasible insertion-only positions (positive
gradient, current value at most one half), flips on exactly the feature
carrying the maximal positive restricted gradient (a one-hot update), and
clamps the result into `[0,1]`; on the 10-dimensional all-zero vector with
lambda fixed at 1 and an oracle favoring dimension 3 then dimension 7, two
steps yield exactly `[0,0,0,1,0,0,0,1,0,0]`. -/
theorem bca_bit_coordinate_step (g x : Row) (p : ℕ)
    (hg : g.length = x.length) (hp : p < x.length)
    (hx : ∀ v ∈ x, 0 ≤ v ∧ v ≤ 1)
    (_hpos : 0 < (grad4insertion g x).getD p 0)
    (hmax : ∀ j, j < x.length → j ≠ p →
      (grad4insertion g x).getD j 0 < (grad4insertion g x).getD p 0) :
    bcaSampleStep g x false = x.set p 1 ∧
    (∀ j, j < x.length → (grad4insertion g x).getD j 0 ≠ 0 →
      0 < g.getD j 0 ∧ x.getD j 0 ≤ 1/2) ∧
    (∀ v ∈ bcaSampleStep g x false, 0 ≤ v ∧ v ≤ 1) ∧
    bcaPerturbInner bcaScenarioModel 1 2 false [] [List.replicate 10 0] =
      [[0, 0, 0, 1, 0, 0, 0, 1, 0, 0]] := by
  have hlen4 : (grad4insertion g x).length = x.length := by
    rw [grad4insertion_length, hg, min_self]
  have harg : argmaxFirst (grad4insertion g x) = p := by
    apply argmaxFirst_eq_of_strict _ p (by omega)
    intro j hj hjp
    have hjx : j < x.length := by omega
    have h1 := hmax j hjx hjp
    rwa [getD_eq_getElem _ _ (by omega), getD_eq_getElem _ _ (by omega)] at h1
  refine ⟨?_, ?_, mem_zipClamp _ _, by with_unfolding_all decide⟩
  · show List.zipWith (fun xi pi => clamp01 (xi + pi)) x
      (oneHot (argmaxFirst (grad4insertion g x)) x.length) = x.set p 1
    rw [harg]
    exact zipClamp_oneHot x p hp hx
  · intro j hj hne
    have hj4 : j < (grad4insertion g x).length := by omega
    have hjg : j < g.length := by omega
    rw [getD_eq_getElem _ _ hj4] at hne
    rw [getD_eq_getElem _ _ hjg, getD_eq_getElem _ _ hj]
    unfold grad4insertion at hne
    rw [List.getElem_zipWith] at hne
    by_cases hgp : 0 < g[j]
    · by_cases hxh : x[j] ≤ 1/2
      · exact ⟨hgp, hxh⟩
      · rw [if_neg hxh] at hne
        simp at hne
    · rw [if_neg hgp] at hne
      simp at hne

/-- C1 witness: the first scenario step at the concrete gradient
`[1,1,1,9,1,1,1,5,1,1]` and the all-zero vector flips exactly bit 3. -/
theorem bca_bit_coordinate_step_witness :
    (0 : ℚ) < (grad4insertion [1, 1, 1, 9, 1, 1, 1, 5, 1, 1] (List.replicate 10 0)).getD 3 0 ∧
    bcaSampleStep [1, 1, 1, 9, 1, 1, 1, 5, 1, 1] (List.replicate 10 0) false =
      (List.replicate 10 (0 : ℚ)).set 3 1 :=
  ⟨by with_unfolding_all decide,
    (bca_bit_coordinate_step [1, 1, 1, 9, 1, 1, 1, 5, 1, 1] (List.replicate 10 0) 3
      (by with_unfolding_all decide) (by with_unfolding_all decide) (by with_unfolding_all decide) (by with_unfolding_all decide) (by with_unfolding_all decide)).1⟩

/-- C8 counterexample: a not-yet-successful sample whose feasible insertion
gradient is zero everywhere is still perturbed — the all-negative gradient
`[-1,-1]` on `[0,0]` yields the restricted gradient `[0,0]`, yet the step
turns the vector into `[1,0]`, not a no-op. -/
theorem bca_zero_feasible_not_noop :
    grad4insertion [-1, -1] [0, 0] = [0, 0] ∧
    bcaStepBatch bcaNegGradModel 1 [[0, 0]] = [[1, 0]] ∧
    ([[1, 0]] : Batch) ≠ [[0, 0]] := by
  exact ⟨by with_unfolding_all decide, by with_unfolding_all decide, by with_unfolding_all decide⟩

/-- C8 amended: when the feasible insertion gradient of a not-yet-successful
sample vanishes at every position, the bit-coordinate-ascent step flips on
feature 0 (the arg-max of the all-zero restricted gradient defaults to the
first index) and leaves every other position unchanged; no exception is
raised.  The update is a no-op only when position 0 already equals 1. -/
theorem bca_zero_feasible_flips_bit_zero (g x : Row)
    (hg : g.length = x.length) (hne : x ≠ [])
    (hx : ∀ v ∈ x, 0 ≤ v ∧ v ≤ 1)
    (hzero : ∀ v ∈ grad4insertion g x, v = 0) :
    bcaSampleStep g x false = x.set 0 1 := by
  have hlen4 : (grad4insertion g x).length = x.length := by
    rw [grad4insertion_length, hg, min_self]
  have hxpos : 0 < x.length := List.length_pos.mpr hne
  have hne4 : grad4insertion g x ≠ [] := by
    intro h0
    apply hne
    rw [← List.length_eq_zero, ← hlen4, h0]
    rfl
  have harg : argmaxFirst (grad4insertion g x) = 0 :=
    argmaxFirst_eq_zero_of_all_eq _ 0 hne4 hzero
  show List.zipWith (fun xi pi => clamp01 (xi + pi)) x
    (oneHot (argmaxFirst (grad4insertion g x)) x.length) = x.set 0 1
  rw [harg]
  exact zipClamp_oneHot x 0 hxpos hx

/-- C8 amended witness: at the all-negative gradient on `[0,0]` the step
produces `[1,0]`. -/
theorem bca_zero_feasible_flips_bit_zero_witness :
    bcaSampleStep [-1, -1] [0, 0] false = ([0, 0] : Row).set 0 1 :=
  bca_zero_feasible_flips_bit_zero [-1, -1] [0, 0] (by with_unfolding_all decide) (by with_unfolding_all decide)
    (by with_unfolding_all decide) (by with_unfolding_all decide)

/-- C9: on an empty batch both single-strategy attacks return immediately —
`BCA._perturb` gives back the empty batch and `OrthogonalStepwiseMax._perturb`
the empty candidate triple — for every oracle, every penalty factor and every
step budget, so no oracle call can influence the result. -/
theorem empty_batch_unchanged (M : Model) (lam : ℚ) (m : ℕ) (useSample : Bool)
    (draws : Batch) (steps : ℕ) (sl1 sl2 slinf : ℚ) :
    bcaPerturbInner M lam m useSample draws [] = [] ∧
    osmPerturbInner M [] steps sl1 sl2 slinf = Except.ok ([], [], []) :=
  ⟨rfl, rfl⟩

/-- C10: on a binary input, `rand_x` without sampling is the identity, and
with sampling each output entry is binary and at least the corresponding
input entry — the random start only switches features on. -/
theorem rand_x_identity_and_monotone (x : Row) (thr : ℚ) (draws : Row)
    (hb : ∀ v ∈ x, v = 0 ∨ v = 1) (hlen : draws.length = x.length) :
    rand_x x thr false draws = x ∧
    ∀ j, j < x.length →
      ((rand_x x thr true draws).getD j 0 = 0 ∨ (rand_x x thr true draws).getD j 0 = 1) ∧
      x.getD j 0 ≤ (rand_x x thr true draws).getD j 0 := by
  have hunf : rand_x x thr true draws = List.zipWith
      (fun d v => ((Nat.lor (if thr < d then 1 else 0) ((Int.toNat ⌊v⌋) % 256) : ℕ) : ℚ))
      draws x := rfl
  refine ⟨rfl, ?_⟩
  intro j hj
  have hjd : j < draws.length := by omega
  have hval : (rand_x x thr true draws).getD j 0 =
      ((Nat.lor (if thr < draws[j] then 1 else 0) ((Int.toNat ⌊x[j]⌋) % 256) : ℕ) : ℚ) := by
    rw [hunf, getD_eq_getElem _ _ (by rw [List.length_zipWith]; omega), List.getElem_zipWith]
  rw [hval, getD_eq_getElem x j hj 0]
  rcases hb x[j] (x.get_mem j hj) with h0 | h1
  · rw [h0]
    by_cases hd : thr < draws[j]
    · rw [if_pos hd]
      norm_num
      all_goals decide
    · rw [if_neg hd]
      norm_num
      all_goals decide
  · rw [h1]
    by_cases hd : thr < draws[j]
    · rw [if_pos hd]
      norm_num
      all_goals decide
    · rw [if_neg hd]
      norm_num
      all_goals decide

/-- C10 witness: at the binary vector `[0,1]` with draws `[1,0]` and
threshold one half. -/
theorem rand_x_identity_and_monotone_witness :
    rand_x [0, 1] (1/2) false [1, 0] = [0, 1] ∧
    ((rand_x [0, 1] (1/2) true [1, 0]).getD 0 0 = 0 ∨
      (rand_x [0, 1] (1/2) true [1, 0]).getD 0 0 = 1) ∧
    (0 : ℚ) ≤ (rand_x [0, 1] (1/2) true [1, 0]).getD 0 0 := by
  have h := rand_x_identity_and_monotone [0, 1] (1/2) [1, 0] (by with_unfolding_all decide) (by with_unfolding_all decide)
  have h0 := h.2 0 (by with_unfolding_all decide)
  exact ⟨h.1, h0.1, by simpa using h0.2⟩

lemma dot_self_nonneg (l : Row) : 0 ≤ dot l l := by
  induction l with
  | nil => simp [dot]
  | cons a t ih =>
    have : dot (a :: t) (a :: t) = a * a + dot t t := by
      simp [dot]
    rw [this]
    have ha : 0 ≤ a * a := mul_self_nonneg a
    linarith

lemma epsProj_pos : 0 < epsProj := by
  unfold epsProj
  positivity

/-- C4: the feasible gradient of `trans_grads` is non-zero at a position only
when either insertion applies (current value at most one half, raw gradient
non-negative) or removal applies (current value above one half, the position
removable by the manipulation mask, raw gradient negative); every other
position is exactly zero. -/
theorem trans_grads_feasible (g x : Row) (mask : List Bool) (j : ℕ)
    (hg : g.length = x.length) (hm : mask.length = x.length) (hj : j < x.length)
    (hne : (trans_grads g x mask).getD j 0 ≠ 0) :
    (x.getD j 0 ≤ 1/2 ∧ 0 ≤ g.getD j 0) ∨
    (1/2 < x.getD j 0 ∧ mask.getD j false = true ∧ g.getD j 0 < 0) := by
  have hlzip : (x.zip mask).length = x.length := by
    rw [List.length_zip, hm, min_self]
  have hlt : (trans_grads g x mask).length = x.length := by
    unfold trans_grads
    rw [List.length_zipWith, hlzip, hg, min_self]
  have hjt : j < (trans_grads g x mask).length := by omega
  have hjz : j < (x.zip mask).length := by omega
  have hjg : j < g.length := by omega
  have hjm : j < mask.length := by omega
  rw [getD_eq_getElem _ _ hjt] at hne
  unfold trans_grads at hne
  rw [List.getElem_zipWith] at hne
  have hzip : (x.zip mask)[j] = (x[j], mask[j]) := List.getElem_zip
  rw [hzip] at hne
  simp only at hne
  rw [getD_eq_getElem _ _ hj, getD_eq_getElem _ _ hjg, getD_eq_getElem _ _ hjm]
  by_cases hxh : x[j] ≤ 1/2
  · left
    refine ⟨hxh, ?_⟩
    by_cases hgp : 0 ≤ g[j]
    · exact hgp
    · exfalso
      apply hne
      rw [if_neg hgp, if_pos (by linarith : g[j] < 0)]
      have hcond : ¬(1/2 < x[j] ∧ mask[j] = true) := by
        intro hc
        linarith [hc.1]
      rw [if_neg hcond]
      ring
  · right
    have hxg : 1/2 < x[j] := by linarith
    refine ⟨hxg, ?_, ?_⟩
    · by_cases hmk : mask[j] = true
      · exact hmk
      · exfalso
        apply hne
        have hcond : ¬(1/2 < x[j] ∧ mask[j] = true) := fun hc => hmk hc.2
        rw [if_neg hcond]
        rw [if_neg (by linarith : ¬ x[j] ≤ 1/2)]
        ring
    · by_cases hgn : g[j] < 0
      · exact hgn
      · exfalso
        apply hne
        rw [if_neg hgn, if_neg (by linarith : ¬ x[j] ≤ 1/2)]
        ring
  
/-- C4 witness: position 0 of gradient `[3]` on value `[0]` with a removable
mask is non-zero, and the theorem classifies it as a feasible insertion. -/
theorem trans_grads_feasible_witness :
    ((0 : ℚ) ≤ 1/2 ∧ (0 : ℚ) ≤ 3) ∨
    ((1:ℚ)/2 < 0 ∧ true = true ∧ (3 : ℚ) < 0) := by
  have h := trans_grads_feasible [3] [0] [true] 0 (by decide) (by decide) (by decide)
    (by with_unfolding_all decide)
  exact h

/-- C5: the orthogonal projector of `OrthogonalStepwiseMax._perturb` computes
the standard orthogonal decomposition `g - (g . h / (h . h + eps)) h` with the
epsilon guarding the denominator, the denominator is always positive, and
projecting `g = [1,1]` against `h = [1,0]` yields `[0,1]` up to the epsilon
perturbation of the denominator. -/
theorem orthogonal_projection_formula :
    (∀ gd gc : Row, orthoProject gd gc = orthoProjectSpec gd gc) ∧
    (∀ gc : Row, 0 < epsProj + dot gc gc) ∧
    (orthoProject [1, 1] [1, 0]).length = 2 ∧
    (orthoProject [1, 1] [1, 0]).getD 1 0 = 1 ∧
    |(orthoProject [1, 1] [1, 0]).getD 0 0 - 0| ≤ epsProj := by
  refine ⟨?_, ?_, ?_, ?_, ?_⟩
  · intro gd gc
    unfold orthoProject orthoProjectSpec
    rw [add_comm (dot gc gc) epsProj]
  · intro gc
    have h1 := dot_self_nonneg gc
    have h2 := epsProj_pos
    linarith
  · with_unfolding_all decide
  · with_unfolding_all decide
  · with_unfolding_all decide

lemma zipClamp_zero (x : Row) (hx : ∀ v ∈ x, 0 ≤ v ∧ v ≤ 1) :
    List.zipWith (fun xi pi => clamp01 (xi + pi)) x (List.replicate x.length 0) = x := by
  induction x with
  | nil => rfl
  | cons a t ih =>
    have ha := hx a (List.mem_cons_self a t)
    have ht : ∀ v ∈ t, 0 ≤ v ∧ v ≤ 1 := fun v hv => hx v (List.mem_cons_of_mem a hv)
    simp only [List.length_cons, List.replicate_succ, List.zipWith_cons_cons]
    rw [add_zero, clamp01_eq_self ha.1 ha.2, ih ht]

lemma bcaSampleStep_done (g x : Row) (hx : ∀ v ∈ x, 0 ≤ v ∧ v ≤ 1) :
    bcaSampleStep g x true = x := by
  show List.zipWith (fun xi pi => clamp01 (xi + pi)) x (List.replicate x.length 0) = x
  exact zipClamp_zero x hx

lemma bcaStepBatch_length (M : Model) (lam : ℚ) (adv : Batch) :
    (bcaStepBatch M lam adv).length = adv.length := by
  simp [bcaStepBatch]

lemma bcaStepBatch_getD (M : Model) (lam : ℚ) (adv : Batch) (i : ℕ) (hi : i < adv.length) :
    (bcaStepBatch M lam adv).getD i [] =
      bcaSampleStep ((M.grad (adv.getD i []) lam).map (· / (adv.length : ℚ)))
        (adv.getD i []) (M.done (adv.getD i [])) := by
  unfold bcaStepBatch
  rw [getD_map_lt _ adv i hi _ []]

lemma mapDone_getD (M : Model) (adv : Batch) (i : ℕ) (hi : i < adv.length) :
    (adv.map M.done).getD i false = M.done (adv.getD i []) :=
  getD_map_lt M.done adv i hi false []

lemma bcaInnerLoop_freeze (M : Model) (lam : ℚ) :
    ∀ (m : ℕ) (adv : Batch) (i : ℕ), i < adv.length →
      (∀ v ∈ adv.getD i [], 0 ≤ v ∧ v ≤ 1) → M.done (adv.getD i []) = true →
      (bcaInnerLoop M lam m adv).getD i [] = adv.getD i [] := by
  intro m
  induction m with
  | zero => intro adv i hi hrow hd; rfl
  | succ k ih =>
    intro adv i hi hrow hd
    simp only [bcaInnerLoop]
    by_cases hall : (adv.map M.done).all id
    · rw [if_pos hall]
    · rw [if_neg hall]
      have hstep : (bcaStepBatch M lam adv).getD i [] = adv.getD i [] := by
        rw [bcaStepBatch_getD M lam adv i hi, hd, bcaSampleStep_done _ _ hrow]
      have hi2 : i < (bcaStepBatch M lam adv).length := by
        rw [bcaStepBatch_length]; omega
      rw [ih (bcaStepBatch M lam adv) i hi2 (by rw [hstep]; exact hrow)
        (by rw [hstep]; exact hd), hstep]

lemma scatterNotDone_length :
    ∀ (adv : Batch) (done : List Bool) (vals : Batch),
      (scatterNotDone adv done vals).length = adv.length := by
  intro adv
  induction adv with
  | nil => intro done vals; rfl
  | cons r rs ih =>
    intro done vals
    cases done with
    | nil => rfl
    | cons d ds => cases d <;> simp [scatterNotDone, ih]

lemma scatterNotDone_getD_done :
    ∀ (adv : Batch) (done : List Bool) (vals : Batch) (i : ℕ),
      done.getD i false = true →
      (scatterNotDone adv done vals).getD i [] = adv.getD i [] := by
  intro adv
  induction adv with
  | nil => intro done vals i h; rfl
  | cons r rs ih =>
    intro done vals i h
    cases done with
    | nil => rfl
    | cons d ds =>
      cases i with
      | zero =>
        have hd : d = true := by simpa using h
        simp [scatterNotDone, hd]
      | succ j =>
        have h2 : ds.getD j false = true := by simpa using h
        cases d
        · show (vals.headD r :: scatterNotDone rs ds vals.tail).getD (j + 1) [] =
            (r :: rs).getD (j + 1) []
          rw [List.getD_cons_succ, List.getD_cons_succ]
          exact ih ds vals.tail j h2
        · show (r :: scatterNotDone rs ds vals).getD (j + 1) [] = (r :: rs).getD (j + 1) []
          rw [List.getD_cons_succ, List.getD_cons_succ]
          exact ih ds vals j h2

lemma bcaLambdaLoop_freeze (M : Model) (m : ℕ) (us : Bool) (draws : Batch) (maxL base : ℚ) :
    ∀ (fuel : ℕ) (lam : ℚ) (adv : Batch) (i : ℕ), i < adv.length →
      M.done (adv.getD i []) = true →
      (bcaLambdaLoop M m us draws maxL base fuel lam adv).final.getD i [] = adv.getD i [] := by
  intro fuel
  induction fuel with
  | zero => intro lam adv i hi hd; rfl
  | succ f ih =>
    intro lam adv i hi hd
    simp only [bcaLambdaLoop]
    by_cases hle : lam ≤ maxL
    · rw [if_pos hle]
      by_cases hall : (adv.map M.done).all id
      · rw [if_pos hall]
      · rw [if_neg hall]
        have hscat : (scatterNotDone adv (adv.map M.done)
            (bcaPerturbInner M lam m us draws (filterNotDone adv (adv.map M.done)))).getD i [] =
            adv.getD i [] := by
          apply scatterNotDone_getD_done
          rw [mapDone_getD M adv i hi]
          exact hd
        by_cases hfg : M.hasForwardG
        · rw [if_pos hfg]
          have hlen : i < (scatterNotDone adv (adv.map M.done)
              (bcaPerturbInner M lam m us draws (filterNotDone adv (adv.map M.done)))).length := by
            rw [scatterNotDone_length]; omega
          rw [ih (lam * base) _ i hlen (by rw [hscat]; exact hd), hscat]
        · rw [if_neg hfg]
          exact hscat
    · rw [if_neg hle]

lemma filterNotDone_nil_left (mask : List Bool) : filterNotDone [] mask = [] := rfl

lemma filterNotDone_cons_true (r : Row) (rs : Batch) (ds : List Bool) :
    filterNotDone (r :: rs) (true :: ds) = filterNotDone rs ds := by
  simp [filterNotDone]

lemma filterNotDone_cons_false (r : Row) (rs : Batch) (ds : List Bool) :
    filterNotDone (r :: rs) (false :: ds) = r :: filterNotDone rs ds := by
  simp [filterNotDone]

lemma filterNotDone_ne_nil :
    ∀ (l : Batch) (mask : List Bool), l.length = mask.length →
      mask.all id = false → filterNotDone l mask ≠ [] := by
  intro l
  induction l with
  | nil =>
    intro mask hlen h
    cases mask with
    | nil => simp at h
    | cons d ds => simp at hlen
  | cons r rs ih =>
    intro mask hlen h
    cases mask with
    | nil => simp at hlen
    | cons d ds =>
      cases d
      · rw [filterNotDone_cons_false]
        simp
      · rw [filterNotDone_cons_true]
        have h2 : ds.all id = false := by simpa using h
        have hl2 : rs.length = ds.length := by simpa using hlen
        exact ih ds hl2 h2

lemma osmPerturbInner_error (M : Model) (x : Batch) (steps : ℕ) (sl1 sl2 slinf : ℚ)
    (hne : x.length ≠ 0) :
    ∃ e, osmPerturbInner M x steps sl1 sl2 slinf = Except.error e := by
  unfold osmPerturbInner
  rw [if_neg hne]
  by_cases hg : M.hasForwardG = false
  · rw [if_pos hg]
    exact ⟨_, rfl⟩
  · rw [if_neg hg]
    exact ⟨_, rfl⟩

lemma osmPerturb_ok (M : Model) (x : Batch) (steps sc : ℕ) (sl1 sl2 slinf thr : ℚ)
    (res : Batch) (h : osmPerturb M x steps sc sl1 sl2 slinf thr = Except.ok res) :
    res = x := by
  unfold osmPerturb at h
  by_cases ha : ¬(sl1 ≤ 1 ∧ 0 < sl1 ∧ 0 ≤ sl2 ∧ 0 ≤ slinf)
  · rw [if_pos ha] at h
    simp at h
  · rw [if_neg ha] at h
    by_cases hsc : sc = 0
    · rw [if_pos hsc] at h
      simp at h
    · rw [if_neg hsc] at h
      cases hms : osmMiniSteps steps sc with
      | nil =>
        rw [hms] at h
        simp only [osmPerturbGo] at h
        exact (Except.ok.inj h).symm
      | cons ms rest =>
        rw [hms] at h
        simp only [osmPerturbGo] at h
        by_cases hall : (x.map M.done).all id
        · rw [if_pos hall] at h
          exact (Except.ok.inj h).symm
        · rw [if_neg hall] at h
          have hallf : (x.map M.done).all id = false := by
            exact Bool.not_eq_true _ ▸ (by simpa using hall)
          have hlens : (scatterNotDone x (x.map M.done)
              (filterNotDone x (x.map M.done))).length = (x.map M.done).length := by
            rw [scatterNotDone_length, List.length_map]
          have hne2 : filterNotDone (scatterNotDone x (x.map M.done)
              (filterNotDone x (x.map M.done))) (x.map M.done) ≠ [] :=
            filterNotDone_ne_nil _ _ hlens hallf
          have hlen0 : (filterNotDone (scatterNotDone x (x.map M.done)
              (filterNotDone x (x.map M.done))) (x.map M.done)).length ≠ 0 := by
            intro h0
            exact hne2 (List.length_eq_zero.mp h0)
          obtain ⟨e, he⟩ := osmPerturbInner_error M _ ms sl1 sl2 slinf hlen0
          simp only [if_true] at h
          rw [he] at h
          simp at h

/-- C3: once a sample is done its adversarial vector is frozen — the
bit-coordinate step zeroes the perturbation of done samples, the inner loop of
`BCA._perturb` never changes a done row, the lambda-escalation loop of
`BCA.perturb` writes only into the not-done slice, and every successful return
of `OrthogonalStepwiseMax.perturb` leaves done rows at their initial
values. -/
theorem done_freeze_invariant :
    (∀ g x : Row, (∀ v ∈ x, 0 ≤ v ∧ v ≤ 1) → bcaSampleStep g x true = x) ∧
    (∀ (M : Model) (lam : ℚ) (m : ℕ) (adv : Batch) (i : ℕ), i < adv.length →
      (∀ v ∈ adv.getD i [], 0 ≤ v ∧ v ≤ 1) → M.done (adv.getD i []) = true →
      (bcaInnerLoop M lam m adv).getD i [] = adv.getD i []) ∧
    (∀ (M : Model) (m : ℕ) (us : Bool) (draws : Batch) (maxL base : ℚ)
      (fuel : ℕ) (lam : ℚ) (adv : Batch) (i : ℕ), i < adv.length →
      M.done (adv.getD i []) = true →
      (bcaLambdaLoop M m us draws maxL base fuel lam adv).final.getD i [] = adv.getD i []) ∧
    (∀ (M : Model) (x : Batch) (steps sc : ℕ) (sl1 sl2 slinf thr : ℚ) (res : Batch),
      osmPerturb M x steps sc sl1 sl2 slinf thr = Except.ok res →
      ∀ i : ℕ, M.done (x.getD i []) = true → res.getD i [] = x.getD i []) := by
  refine ⟨bcaSampleStep_done, ?_, ?_, ?_⟩
  · intro M lam m adv i hi hrow hd
    exact bcaInnerLoop_freeze M lam m adv i hi hrow hd
  · intro M m us draws maxL base fuel lam adv i hi hd
    exact bcaLambdaLoop_freeze M m us draws maxL base fuel lam adv i hi hd
  · intro M x steps sc sl1 sl2 slinf thr res h i _
    rw [osmPerturb_ok M x steps sc sl1 sl2 slinf thr res h]

/-- C3 witness: concrete freeze checks — a done sample survives a
bit-coordinate step, a two-round escalation and a successful stepwise-max
call untouched. -/
theorem done_freeze_invariant_witness :
    bcaSampleStep [5] [0] true = [0] ∧
    (bcaLambdaLoop allDoneModel 1 false [] 100 10 3 1 [[0, 1]]).final.getD 0 [] = [0, 1] ∧
    ([[0, 1]] : Batch).getD 0 [] = [0, 1] := by
  refine ⟨done_freeze_invariant.1 [5] [0] (by norm_num), ?_, rfl⟩
  have h := done_freeze_invariant.2.2.1 allDoneModel 1 false [] 100 10 3 1 [[0, 1]] 0
    (by norm_num) (by rfl)
  rw [h]
  rfl

/-- C6: `OrthogonalStepwiseMax.perturb` is meant to stack the three candidate
batches at each checkpoint, score their concatenation in one oracle call,
select the per-sample arg-max candidate and round it into the working batch;
the selection stage (embedded as `osmCheckpointSelect` and `round_x`) behaves
that way, but the call crashes inside `_perturb` on every batch with a
not-yet-done sample before any checkpoint selection can run. -/
theorem osm_checkpoint_stage_unreached :
    osmPerturb osmCrashModel [[0, 0]] 10 10 1 1 (1/100) (1/2) =
      Except.error "UnboundLocalError: local variable adv_x_linf referenced before assignment" ∧
    osmCheckpointSelect osmSelectModel [[0, 0]] [[1, 0]] [[0, 1]] = [[1, 0]] ∧
    round_x [9/10, 2/5] (1/2) = [1, 0] := by
  refine ⟨by with_unfolding_all rfl, by with_unfolding_all decide, by with_unfolding_all decide⟩

/-- C7: the projected-gradient steps of `OrthogonalStepwiseMax._perturb` are
meant to add the sign (L-infinity), unit-L2 or top-k (L1) direction scaled by
the step length and clamp into `[0,1]` — the modelled L-infinity step applied
three times with step length one tenth takes the all-one-half vector to
all four fifths — but the source updates the never-assigned locals
`adv_x_linf`, `adv_x_l2`, `adv_x_l1` (and an undefined `step_length`), so the
call raises on any nonempty batch. -/
theorem osm_pgd_steps_crash :
    osmPerturbInner osmCrashModel [[1/2, 1/2]] 3 1 1 (1/10) =
      Except.error "UnboundLocalError: local variable adv_x_linf referenced before assignment" ∧
    pgdLinfStep [1, 1] (pgdLinfStep [1, 1] (pgdLinfStep [1, 1] [1/2, 1/2] (1/10)) (1/10)) (1/10) =
      [4/5, 4/5] := by
  refine ⟨by with_unfolding_all rfl, by with_unfolding_all decide⟩

lemma bcaLambdaLoop_rounds_le (M : Model) (m : ℕ) (us : Bool) (draws : Batch)
    (maxL base : ℚ) :
    ∀ (k fuel : ℕ) (lam : ℚ) (adv : Batch), maxL < lam * base ^ k →
      (bcaLambdaLoop M m us draws maxL base fuel lam adv).rounds ≤ k := by
  intro k
  induction k with
  | zero =>
    intro fuel lam adv h
    rw [pow_zero, mul_one] at h
    cases fuel with
    | zero => exact Nat.le_refl 0
    | succ f =>
      simp only [bcaLambdaLoop]
      rw [if_neg (not_le.mpr h)]
  | succ k ih =>
    intro fuel lam adv h
    cases fuel with
    | zero => exact Nat.zero_le _
    | succ f =>
      simp only [bcaLambdaLoop]
      by_cases hle : lam ≤ maxL
      · rw [if_pos hle]
        by_cases hall : (adv.map M.done).all id
        · rw [if_pos hall]
          exact Nat.zero_le _
        · rw [if_neg hall]
          by_cases hfg : M.hasForwardG
          · rw [if_pos hfg]
            have h2 : maxL < (lam * base) * base ^ k := by
              rw [mul_assoc, mul_comm base (base ^ k), ← pow_succ]
              exact h
            exact Nat.succ_le_succ (ih f (lam * base) _ h2)
          · rw [if_neg hfg]
            exact Nat.succ_le_succ (Nat.zero_le k)
      · rw [if_neg hle]
        exact Nat.zero_le _

lemma bcaLambdaLoop_completed (M : Model) (m : ℕ) (us : Bool) (draws : Batch)
    (maxL base : ℚ) :
    ∀ (k fuel : ℕ) (lam : ℚ) (adv : Batch), maxL < lam * base ^ k → k < fuel →
      (bcaLambdaLoop M m us draws maxL base fuel lam adv).completed = true := by
  intro k
  induction k with
  | zero =>
    intro fuel lam adv h hf
    rw [pow_zero, mul_one] at h
    cases fuel with
    | zero => omega
    | succ f =>
      simp only [bcaLambdaLoop]
      rw [if_neg (not_le.mpr h)]
  | succ k ih =>
    intro fuel lam adv h hf
    cases fuel with
    | zero => omega
    | succ f =>
      simp only [bcaLambdaLoop]
      by_cases hle : lam ≤ maxL
      · rw [if_pos hle]
        by_cases hall : (adv.map M.done).all id
        · rw [if_pos hall]
        · rw [if_neg hall]
          by_cases hfg : M.hasForwardG
          · rw [if_pos hfg]
            have h2 : maxL < (lam * base) * base ^ k := by
              rw [mul_assoc, mul_comm base (base ^ k), ← pow_succ]
              exact h
            exact ih f (lam * base) _ h2 (by omega)
          · rw [if_neg hfg]
      · rw [if_neg hle]

lemma bcaLambdaLoop_lambdaEnd (M : Model) (m : ℕ) (us : Bool) (draws : Batch)
    (maxL base : ℚ) :
    ∀ (fuel : ℕ) (lam : ℚ) (adv : Batch),
      (bcaLambdaLoop M m us draws maxL base fuel lam adv).lambdaEnd =
        lam * base ^ (bcaLambdaLoop M m us draws maxL base fuel lam adv).rounds := by
  intro fuel
  induction fuel with
  | zero =>
    intro lam adv
    simp [bcaLambdaLoop]
  | succ f ih =>
    intro lam adv
    simp only [bcaLambdaLoop]
    by_cases hle : lam ≤ maxL
    · rw [if_pos hle]
      by_cases hall : (adv.map M.done).all id
      · rw [if_pos hall]
        simp
      · rw [if_neg hall]
        by_cases hfg : M.hasForwardG
        · rw [if_pos hfg]
          dsimp only
          rw [ih (lam * base) _, pow_succ]
          ring
        · rw [if_neg hfg]
          dsimp only
          rw [pow_one]
    · rw [if_neg hle]
      simp

lemma bcaLambdaLoop_stop (M : Model) (m : ℕ) (us : Bool) (draws : Batch)
    (maxL base : ℚ) (fuel : ℕ) (lam : ℚ) (adv : Batch) :
    ((adv.map M.done).all id = true →
      (bcaLambdaLoop M m us draws maxL base fuel lam adv).rounds = 0 ∧
      (bcaLambdaLoop M m us draws maxL base fuel lam adv).final = adv) ∧
    (maxL < lam →
      (bcaLambdaLoop M m us draws maxL base fuel lam adv).rounds = 0 ∧
      (bcaLambdaLoop M m us draws maxL base fuel lam adv).final = adv) := by
  constructor
  · intro hall
    cases fuel with
    | zero => exact ⟨rfl, rfl⟩
    | succ f =>
      simp only [bcaLambdaLoop]
      by_cases hle : lam ≤ maxL
      · rw [if_pos hle, if_pos hall]
        exact ⟨rfl, rfl⟩
      · rw [if_neg hle]
        exact ⟨rfl, rfl⟩
  · intro hmax
    cases fuel with
    | zero => exact ⟨rfl, rfl⟩
    | succ f =>
      simp only [bcaLambdaLoop]
      rw [if_neg (not_le.mpr hmax)]
      exact ⟨rfl, rfl⟩

lemma maxL_lt_pow_ceil (minL maxL base : ℚ) (h1 : 0 < minL) (h2 : minL ≤ maxL)
    (h3 : 1 < base) :
    maxL < minL * base ^ (Nat.ceil (Real.logb (base : ℝ) ((maxL : ℝ) / (minL : ℝ))) + 1) := by
  have hminR : (0 : ℝ) < (minL : ℝ) := by exact_mod_cast h1
  have hbR : (1 : ℝ) < (base : ℝ) := by exact_mod_cast h3
  have hmaxQ : (0 : ℚ) < maxL := lt_of_lt_of_le h1 h2
  have hmaxR : (0 : ℝ) < (maxL : ℝ) := by exact_mod_cast hmaxQ
  have hratio : (0 : ℝ) < (maxL : ℝ) / (minL : ℝ) := div_pos hmaxR hminR
  set L := Real.logb (base : ℝ) ((maxL : ℝ) / (minL : ℝ)) with hL
  set K := Nat.ceil L with hK
  have hlt : L < (K : ℝ) + 1 := lt_of_le_of_lt (Nat.le_ceil L) (lt_add_one _)
  have hrw : (maxL : ℝ) / (minL : ℝ) = (base : ℝ) ^ L :=
    (Real.rpow_logb (by linarith) (by exact ne_of_gt hbR) hratio).symm
  have hpow : (maxL : ℝ) / (minL : ℝ) < (base : ℝ) ^ ((K : ℝ) + 1) := by
    rw [hrw]
    exact (Real.rpow_lt_rpow_left_iff hbR).mpr hlt
  have hpow2 : (maxL : ℝ) / (minL : ℝ) < (base : ℝ) ^ (K + 1 : ℕ) := by
    have hcast : ((K + 1 : ℕ) : ℝ) = (K : ℝ) + 1 := by push_cast; ring
    rw [← Real.rpow_natCast (base : ℝ) (K + 1), hcast]
    exact hpow
  have hfin : (maxL : ℝ) < (minL : ℝ) * (base : ℝ) ^ (K + 1 : ℕ) := by
    rw [div_lt_iff₀ hminR] at hpow2
    nlinarith [hpow2]
  have hcast2 : ((minL * base ^ (K + 1) : ℚ) : ℝ) = (minL : ℝ) * (base : ℝ) ^ (K + 1 : ℕ) := by
    push_cast
    ring
  exact_mod_cast hfin

/-- C2: the lambda-escalation loop of `BCA.perturb` performs at most
`ceil (log_base (max / min)) + 1` rounds and, given that much fuel, exits
through its own stop conditions (it terminates); lambda starts at
`min_lambda_` exactly when the model exposes `forward_g` and at `max_lambda_`
otherwise, the final lambda is the start multiplied by `base` once per round,
and the loop performs no round when all samples are already done or lambda
already exceeds `max_lambda_`. -/
theorem bca_lambda_escalation (M : Model) (x : Batch) (m : ℕ) (minL maxL base : ℚ)
    (useSample : Bool) (draws : Batch) (fuel : ℕ)
    (h1 : 0 < minL) (h2 : minL ≤ maxL) (h3 : 1 < base) :
    (bcaPerturb M x m minL maxL base useSample draws fuel).rounds ≤
      Nat.ceil (Real.logb (base : ℝ) ((maxL : ℝ) / (minL : ℝ))) + 1 ∧
    (Nat.ceil (Real.logb (base : ℝ) ((maxL : ℝ) / (minL : ℝ))) + 1 < fuel →
      (bcaPerturb M x m minL maxL base useSample draws fuel).completed = true) ∧
    (bcaPerturb M x m minL maxL base useSample draws fuel).lambdaEnd =
      (if M.hasForwardG then minL else maxL) *
        base ^ (bcaPerturb M x m minL maxL base useSample draws fuel).rounds ∧
    ((x.map M.done).all id = true →
      (bcaPerturb M x m minL maxL base useSample draws fuel).rounds = 0 ∧
      (bcaPerturb M x m minL maxL base useSample draws fuel).final = x) ∧
    (∀ (f : ℕ) (lam : ℚ) (adv : Batch), maxL < lam →
      (bcaLambdaLoop M m useSample draws maxL base f lam adv).rounds = 0 ∧
      (bcaLambdaLoop M m useSample draws maxL base f lam adv).final = adv) ∧
    bcaPerturb M x m minL maxL base useSample draws fuel =
      bcaLambdaLoop M m useSample draws maxL base fuel
        (if M.hasForwardG then minL else maxL) x := by
  have hkey := maxL_lt_pow_ceil minL maxL base h1 h2 h3
  have hmaxQ : (0 : ℚ) < maxL := lt_of_lt_of_le h1 h2
  have hstart : maxL < (if M.hasForwardG then minL else maxL) *
      base ^ (Nat.ceil (Real.logb (base : ℝ) ((maxL : ℝ) / (minL : ℝ))) + 1) := by
    by_cases hfg : M.hasForwardG
    · rw [if_pos hfg]
      exact hkey
    · rw [if_neg hfg]
      have hb1 : (1 : ℚ) < base ^ (Nat.ceil (Real.logb (base : ℝ)
          ((maxL : ℝ) / (minL : ℝ))) + 1) := one_lt_pow₀ h3 (by omega)
      nlinarith
  refine ⟨?_, ?_, ?_, ?_, ?_, rfl⟩
  · exact bcaLambdaLoop_rounds_le M m useSample draws maxL base _ fuel _ x hstart
  · intro hf
    exact bcaLambdaLoop_completed M m useSample draws maxL base _ fuel _ x hstart hf
  · exact bcaLambdaLoop_lambdaEnd M m useSample draws maxL base fuel _ x
  · intro hall
    exact (bcaLambdaLoop_stop M m useSample draws maxL base fuel _ x).1 hall
  · intro f lam adv hmax
    exact (bcaLambdaLoop_stop M m useSample draws maxL base f lam adv).2 hmax

/-- C2 witness: with `min = 1`, `max = 100`, `base = 10` and a detector-aware
never-done oracle, the escalation loop obeys the `ceil (log_10 100) + 1`
round bound. -/
theorem bca_lambda_escalation_witness :
    (0 : ℚ) < 1 ∧ (1 : ℚ) ≤ 100 ∧ (1 : ℚ) < 10 ∧
    (bcaPerturb escModel [[0]] 1 1 100 10 false [] 10).rounds ≤
      Nat.ceil (Real.logb ((10 : ℚ) : ℝ) (((100 : ℚ) : ℝ) / ((1 : ℚ) : ℝ))) + 1 := by
  have h := bca_lambda_escalation escModel [[0]] 1 1 100 10 false [] 10
    (by norm_num) (by norm_num) (by norm_num)
  exact ⟨by norm_num, by norm_num, by norm_num, h.1⟩
